import Mathlib

/-!
Verification development for the hook-signature parser and matcher of the
`rust-vscode` extension.  The definitions below are a shallow embedding of
`src/parser.ts` (`parseHook`, `normalizeGenericType`) and of the analyzable
core of `src/extension.ts` (`createRegexFromHook` in its two modes, and the
deprecated-hook / valid-hook passes of `analyzeDocument`).  Text is modelled
as `List Char`; the regular expressions built by the source are modelled by
deterministic matchers that follow the greedy semantics of the concrete
patterns the source constructs (all literals involved start with characters
that the adjacent `\s*`/`\s+`/`\w+` pieces cannot absorb, so no backtracking
is needed).  Ranges are pairs of character offsets; the host's
offset-to-position translation is outside the analyzable core.
-/

/-- Characters matched by the JavaScript regex class `\s` (the ASCII ones;
the exotic Unicode space characters do not occur in the catalog data). -/
def jsSpace (c : Char) : Bool :=
  c = ' ' || c = '\t' || c = '\n' || c = '\r' || c = '\x0b' || c = '\x0c'

/-- Characters matched by the JavaScript regex class `\w`. -/
def isWordChar (c : Char) : Bool :=
  c.isAlphanum || c = '_'

/-- Characters matched by the class `[\w.]` used for the dotted method name. -/
def isWordDot (c : Char) : Bool :=
  isWordChar c || c = '.'

/-- JavaScript line terminators, which `.` (without the `s` flag) never matches. -/
def isLineTerm (c : Char) : Bool :=
  c = '\n' || c = '\r' || c = '\u2028' || c = '\u2029'

/-- Model of `String.prototype.trim`: drop whitespace from both ends. -/
def jsTrim (l : List Char) : List Char :=
  ((l.dropWhile jsSpace).reverse.dropWhile jsSpace).reverse

/-- Model of `replace(/^void\s+/, '')`: strip one leading `void` keyword together with
the (non-empty) whitespace run that follows it. -/
def stripVoid (l : List Char) : List Char :=
  match l with
  | 'v' :: 'o' :: 'i' :: 'd' :: c :: rest =>
    if jsSpace c then rest.dropWhile jsSpace else l
  | _ => l

/-- The cleaning step `hookSignature.trim().replace(/^void\s+/, '')` of `parseHook`. -/
def cleanSignatureData (s : String) : List Char :=
  stripVoid (jsTrim s.data)

/-- Model of `String.prototype.split` on a single separator character (this is what
`split('.')`, `split(',')` perform on the strings involved). -/
def splitOnChar (c : Char) : List Char → List (List Char)
  | [] => [[]]
  | x :: xs =>
    if x = c then [] :: splitOnChar c xs
    else
      match splitOnChar c xs with
      | [] => [[x]]
      | p :: ps => (x :: p) :: ps

/-- Model of `Array.prototype.join` with a single separator character. -/
def joinChar (c : Char) : List (List Char) → List Char
  | [] => []
  | [p] => p
  | p :: ps => p ++ c :: joinChar c ps

/-- The scanning loop of `normalizeGenericType`: track the `<`/`>` nesting
depth and turn a comma seen at positive depth into the placeholder `|`.
The depth is an integer because the source decrements unconditionally. -/
def normAux : Int → List Char → List Char
  | _, [] => []
  | d, c :: rest =>
    if c = '<' then '<' :: normAux (d + 1) rest
    else if c = '>' then '>' :: normAux (d - 1) rest
    else if c = ',' ∧ 0 < d then '|' :: normAux d rest
    else c :: normAux d rest

/-- Model of `replace(/\|/g, ',')`: rewrite every pipe character into a comma. -/
def replacePipe (l : List Char) : List Char :=
  l.map (fun c => if c = '|' then ',' else c)

/-- The function `normalizeGenericType` from `src/parser.ts`. -/
def normalizeGenericType (l : List Char) : List Char :=
  replacePipe (normAux 0 l)

/-- The anchored match `cleanSignature.match(/^([\w.]+)\s*\((.*)\)$/)`:
a maximal non-empty run of `[\w.]` characters, optional whitespace, an
opening parenthesis, then any characters without a line terminator up to a
closing parenthesis that ends the string.  Returns the two capture groups. -/
def matchMethod (l : List Char) : Option (List Char × List Char) :=
  let w := l.takeWhile isWordDot
  let r := (l.dropWhile isWordDot).dropWhile jsSpace
  if w.isEmpty then none
  else if r.head? ≠ some '(' then none
  else if r.getLast? ≠ some ')' then none
  else if ((r.drop 1).dropLast.any isLineTerm) then none
  else some (w, (r.drop 1).dropLast)

/-- The structured record produced by the signature parser.  The optional
namespace field is called `nspace` because `namespace` is a Lean keyword. -/
structure ParsedHook where
  name : String
  parameters : List String
  nspace : Option String
deriving Repr, DecidableEq

/-- The function `parseHook` from `src/parser.ts`: clean the signature, match the overall
shape (degrading to a name-only record when it fails), split the dotted
identifier, and split the parameter list on every comma before normalizing
each piece that mentions a generic type. -/
def parseHook (hookSignature : String) : ParsedHook :=
  let clean := cleanSignatureData hookSignature
  match matchMethod clean with
  | none => { name := String.mk clean, parameters := [], nspace := none }
  | some (fullName, paramString) =>
    let nameParts := splitOnChar '.' fullName
    let name := String.mk (nameParts.getLastD [])
    let nspace :=
      if 1 < nameParts.length then some (String.mk (joinChar '.' nameParts.dropLast))
      else none
    let parameters :=
      (((splitOnChar ',' paramString).map jsTrim).filter (fun p => !p.isEmpty)).map
        (fun p => String.mk (if p.contains '<' then normalizeGenericType p else p))
    { name := name, parameters := parameters, nspace := nspace }

/-- Match a literal character sequence at the head of the text, returning the
remainder.  The `escapedName`/type escaping in `createRegexFromHook` turns the
name and the type tokens into regex literals, which is what this models. -/
def matchLit : List Char → List Char → Option (List Char)
  | [], l => some l
  | _ :: _, [] => none
  | p :: ps, c :: cs => if c = p then matchLit ps cs else none

/-- The shared pattern head `void\s+<escapedName>\s*\(` of both matcher
modes, tried at the head of the text; returns the remainder after `(`. -/
def matchHead (name : List Char) (l : List Char) : Option (List Char) :=
  match matchLit ['v', 'o', 'i', 'd'] l with
  | none => none
  | some r1 =>
    if (r1.takeWhile jsSpace).isEmpty then none
    else
      match matchLit name (r1.dropWhile jsSpace) with
      | none => none
      | some r3 =>
        match r3.dropWhile jsSpace with
        | '(' :: r5 => some r5
        | _ => none

/-- Permissive mode (`checkMissingParams = true`): the pattern
`methodStart + '([^)]*)\)'`.  On success the result is the total matched
length together with the capture group (everything up to the next `)`). -/
def matchPermAt (name : List Char) (l : List Char) : Option (Nat × List Char) :=
  match matchHead name l with
  | none => none
  | some r5 =>
    match r5.dropWhile (fun c => c ≠ ')') with
    | ')' :: r6 => some (l.length - r6.length, r5.takeWhile (fun c => c ≠ ')'))
    | _ => none

/-- One strict-mode parameter position: the escaped type token as a literal,
then `\s+\w+` (whitespace and an identifier).  Returns the remainder. -/
def matchOneParam (ty : List Char) (l : List Char) : Option (List Char) :=
  match matchLit ty l with
  | none => none
  | some r1 =>
    if (r1.takeWhile jsSpace).isEmpty then none
    else
      let r2 := r1.dropWhile jsSpace
      if (r2.takeWhile isWordChar).isEmpty then none
      else some (r2.dropWhile isWordChar)

/-- The strict-mode joiner `\s*,\s*` applied before each further parameter. -/
def matchParamsTail : List (List Char) → List Char → Option (List Char)
  | [], l => some l
  | ty :: tys, l =>
    match l.dropWhile jsSpace with
    | ',' :: r1 =>
      match matchOneParam ty (r1.dropWhile jsSpace) with
      | none => none
      | some r2 => matchParamsTail tys r2
    | _ => none

/-- Strict mode (`checkMissingParams` absent): for a non-empty type list the
pattern `methodStart + '\s*' + joined-params + '\s*\)'`, and for an empty
list `methodStart + '\s*\)'`.  Returns the total matched length. -/
def matchStrictAt (name : List Char) (types : List (List Char)) (l : List Char) :
    Option (Nat × Unit) :=
  match matchHead name l with
  | none => none
  | some r5 =>
    match types with
    | [] =>
      match r5.dropWhile jsSpace with
      | ')' :: r6 => some (l.length - r6.length, ())
      | _ => none
    | ty :: tys =>
      match matchOneParam ty (r5.dropWhile jsSpace) with
      | none => none
      | some r6 =>
        match matchParamsTail tys r6 with
        | none => none
        | some r7 =>
          match r7.dropWhile jsSpace with
          | ')' :: r8 => some (l.length - r8.length, ())
          | _ => none

/-- The `regex.exec` loop over a global pattern: find the leftmost match at
or after the current position, record it, and continue right after it.  The
fuel argument is the initial text length; every step consumes at least one
character for the patterns at hand (they all require the literal `void`). -/
def findAllAux {α : Type} (matchAt : List Char → Option (Nat × α)) :
    Nat → List Char → Nat → List (Nat × Nat × α)
  | 0, _, _ => []
  | _ + 1, [], _ => []
  | fuel + 1, c :: rest, pos =>
    match matchAt (c :: rest) with
    | some (len, a) => (pos, len, a) :: findAllAux matchAt fuel ((c :: rest).drop len) (pos + len)
    | none => findAllAux matchAt fuel rest (pos + 1)

/-- All matches of a global pattern over a text, with start offsets. -/
def findAll {α : Type} (matchAt : List Char → Option (Nat × α)) (l : List Char) :
    List (Nat × Nat × α) :=
  findAllAux matchAt l.length l 0

/-- All occurrences found by `createRegexFromHook(hook, true)` over a text:
start offset, matched length and the captured parameter text. -/
def permissiveFindAll (hook text : String) : List (Nat × Nat × List Char) :=
  findAll (matchPermAt (parseHook hook).name.data) text.data

/-- The strict-mode type tokens: `param.split(' ')[0]` for each parsed
parameter (the first word before a space character). -/
def hookTypeTokens (hook : String) : List (List Char) :=
  (parseHook hook).parameters.map (fun p => p.data.takeWhile (fun c => c ≠ ' '))

/-- All occurrences found by `createRegexFromHook(hook)` (strict mode) over a
text: start offset and matched length. -/
def strictFindAll (hook text : String) : List (Nat × Nat) :=
  (findAll (matchStrictAt (parseHook hook).name.data (hookTypeTokens hook)) text.data).map
    (fun o => (o.1, o.2.1))

/-- Diagnostic severities used by `analyzeDocument`. -/
inductive Severity where
  | error
  | warning
deriving Repr, DecidableEq

/-- A diagnostic over character offsets (the host maps offsets to editor
positions; that translation is outside the analyzable core). -/
structure Diagnostic where
  startPos : Nat
  endPos : Nat
  message : String
  severity : Severity
deriving Repr, DecidableEq

/-- The deprecation message built by `analyzeDocument`: the ternary on
`newHook` distinguishes an empty replacement from a non-empty one. -/
def deprecatedMessage (oldHook newHook : String) : String :=
  "Hook \"" ++ oldHook ++ "\" is deprecated.\n" ++
    (if newHook = "" then "No direct replacement available."
     else "Use \"" ++ newHook ++ "\" instead.")

/-- The `while ((match = regex.exec(text)))` loop of the deprecated-hook
pass, one diagnostic per occurrence. -/
def deprecatedLoop (oldHook newHook : String) : List (Nat × Nat) → List Diagnostic
  | [] => []
  | (pos, len) :: rest =>
    { startPos := pos, endPos := pos + len,
      message := deprecatedMessage oldHook newHook,
      severity := Severity.error } :: deprecatedLoop oldHook newHook rest

/-- The deprecated-hook pass of `analyzeDocument` for one catalog entry:
`createRegexFromHook(oldHook)` is called without `checkMissingParams`, so the
occurrences are the strict-mode ones. -/
def processDeprecatedHook (oldHook newHook text : String) : List Diagnostic :=
  deprecatedLoop oldHook newHook (strictFindAll oldHook text)

/-- The count `const params = match[1].trim(); params ? params.split(',').length : 0`
computed by the valid-hook pass. -/
def jsParamCount (cap : List Char) : Nat :=
  let t := jsTrim cap
  if t.isEmpty then 0 else (splitOnChar ',' t).length

/-- The missing-parameters warning message built by `analyzeDocument`. -/
def missingParamsMessage (hook name : String) : String :=
  "Hook \"" ++ name ++ "\" has missing parameters.\nExpected: " ++ hook

/-- The `while` loop of the valid-hook pass: per occurrence, push a warning
when the captured count is below the expected count, and always record the
occurrence's range in the highlight list. -/
def validHookLoop (msg : String) (expected : Nat) :
    List (Nat × Nat × List Char) → List Diagnostic × List (Nat × Nat)
  | [] => ([], [])
  | (pos, len, cap) :: rest =>
    let acc := validHookLoop msg expected rest
    ((if jsParamCount cap < expected then
        { startPos := pos, endPos := pos + len, message := msg,
          severity := Severity.warning } :: acc.1
      else acc.1),
     (pos, pos + len) :: acc.2)

/-- The valid-hook pass of `analyzeDocument` for one catalog entry: the
permissive occurrences, folded into (diagnostics, highlight ranges). -/
def processValidHook (hook text : String) : List Diagnostic × List (Nat × Nat) :=
  let parsed := parseHook hook
  validHookLoop (missingParamsMessage hook parsed.name) parsed.parameters.length
    (permissiveFindAll hook text)

/-- The parameter count as the specification words it (for comparison with
`jsParamCount`): split the captured text on top-level commas only — commas
nested inside angle brackets are not separators — trim each piece and count
the non-empty pieces. -/
def splitTopLevel : Int → List Char → List Char → List (List Char)
  | _, acc, [] => [acc.reverse]
  | d, acc, c :: rest =>
    if c = '<' then splitTopLevel (d + 1) (c :: acc) rest
    else if c = '>' then splitTopLevel (d - 1) (c :: acc) rest
    else if c = ',' ∧ d ≤ 0 then acc.reverse :: splitTopLevel d [] rest
    else splitTopLevel d (c :: acc) rest

/-- Count of non-empty trimmed top-level pieces, per the specification. -/
def specTopLevelParamCount (s : String) : Nat :=
  (((splitTopLevel 0 [] s.data).map jsTrim).filter (fun p => !p.isEmpty)).length

/-! ## Helper lemmas -/

theorem string_mk_eq_empty_iff (l : List Char) : String.mk l = "" ↔ l = [] :=
  ⟨fun h => congrArg String.data h, fun h => by subst h; rfl⟩

theorem splitOnChar_cons_self (c : Char) (xs : List Char) :
    splitOnChar c (c :: xs) = [] :: splitOnChar c xs := by
  simp [splitOnChar]

theorem splitOnChar_cons_ne (c x : Char) (xs : List Char) (hx : ¬ x = c)
    (a : List Char) (as : List (List Char)) (hr : splitOnChar c xs = a :: as) :
    splitOnChar c (x :: xs) = (x :: a) :: as := by
  simp [splitOnChar, hx, hr]

theorem splitOnChar_ne_nil (c : Char) (l : List Char) : splitOnChar c l ≠ [] := by
  induction l with
  | nil => simp [splitOnChar]
  | cons x xs ih =>
    by_cases hx : x = c
    · subst hx; rw [splitOnChar_cons_self]; simp
    · cases hr : splitOnChar c xs with
      | nil => exact absurd hr ih
      | cons a as => rw [splitOnChar_cons_ne c x xs hx a as hr]; simp

theorem joinChar_cons₂ (c : Char) (p q : List Char) (ps : List (List Char)) :
    joinChar c (p :: q :: ps) = p ++ c :: joinChar c (q :: ps) := rfl

theorem splitOnChar_length (c : Char) (l : List Char) :
    (splitOnChar c l).length = l.count c + 1 := by
  induction l with
  | nil => simp [splitOnChar]
  | cons x xs ih =>
    by_cases hx : x = c
    · subst hx
      rw [splitOnChar_cons_self]
      simp [List.count_cons, ih]
    · cases hr : splitOnChar c xs with
      | nil => exact absurd hr (splitOnChar_ne_nil c xs)
      | cons a as =>
        rw [splitOnChar_cons_ne c x xs hx a as hr]
        rw [hr] at ih
        simp only [List.length_cons] at ih ⊢
        have hb : (x == c) = false := by simp [hx]
        simp [List.count_cons, hb]
        omega

theorem joinChar_splitOnChar (c : Char) (l : List Char) :
    joinChar c (splitOnChar c l) = l := by
  induction l with
  | nil => rfl
  | cons x xs ih =>
    by_cases hx : x = c
    · subst hx
      rw [splitOnChar_cons_self]
      cases hr : splitOnChar x xs with
      | nil => exact absurd hr (splitOnChar_ne_nil x xs)
      | cons a as =>
        rw [hr] at ih
        rw [joinChar_cons₂]
        simp [ih]
    · cases hr : splitOnChar c xs with
      | nil => exact absurd hr (splitOnChar_ne_nil c xs)
      | cons a as =>
        rw [splitOnChar_cons_ne c x xs hx a as hr]
        rw [hr] at ih
        cases as with
        | nil =>
          simp only [joinChar] at ih ⊢
          rw [ih]
        | cons b bs =>
          rw [joinChar_cons₂] at ih ⊢
          rw [List.cons_append, ih]

theorem getLastD_cons_of_ne_nil {α : Type} (a d : α) (l : List α) (h : l ≠ []) :
    (a :: l).getLastD d = l.getLastD d := by
  cases l with
  | nil => exact absurd rfl h
  | cons b bs =>
    simp [List.getLastD_eq_getLast?, List.getLast?_cons_cons]

theorem joinChar_dropLast (c : Char) (p : List Char) (ps : List (List Char)) (h : ps ≠ []) :
    joinChar c ((p :: ps).dropLast) ++ c :: ps.getLastD [] = joinChar c (p :: ps) := by
  induction ps generalizing p with
  | nil => exact absurd rfl h
  | cons q rest ih =>
    cases rest with
    | nil => simp [joinChar]
    | cons b bs =>
      have step := ih q (by simp)
      have hd : (q :: b :: bs).getLastD [] = (b :: bs).getLastD [] :=
        getLastD_cons_of_ne_nil q [] (b :: bs) (by simp)
      rw [hd]
      rw [show (p :: q :: b :: bs).dropLast = p :: q :: ((b :: bs).dropLast) from rfl]
      rw [joinChar_cons₂ c p q ((b :: bs).dropLast), joinChar_cons₂ c p q (b :: bs)]
      rw [List.append_assoc, List.cons_append]
      rw [show (q :: b :: bs).dropLast = q :: ((b :: bs).dropLast) from rfl] at step
      rw [step]

theorem splitOnChar_getLastD_ne_nil (c : Char) (l : List Char)
    (h1 : l ≠ []) (h2 : l.getLast? ≠ some c) :
    (splitOnChar c l).getLastD [] ≠ [] := by
  induction l with
  | nil => exact absurd rfl h1
  | cons x xs ih =>
    cases xs with
    | nil =>
      have hx : ¬ x = c := fun hxc => h2 (by simp [hxc])
      cases hr : splitOnChar c ([] : List Char) with
      | nil => exact absurd hr (splitOnChar_ne_nil c [])
      | cons a as =>
        rw [splitOnChar_cons_ne c x [] hx a as hr]
        have : a = [] ∧ as = [] := by
          have : splitOnChar c ([] : List Char) = [[]] := rfl
          rw [this] at hr
          exact ⟨(List.cons.injEq _ _ _ _ ▸ hr).1.symm ▸ rfl, by
            injection hr with hh ht; exact ht.symm⟩
        obtain ⟨ha, has⟩ := this
        subst ha; subst has
        simp
    | cons y ys =>
      have h2' : (y :: ys).getLast? ≠ some c := by
        rwa [List.getLast?_cons_cons] at h2
      have ihv := ih (by simp) h2'
      by_cases hx : x = c
      · subst hx
        rw [splitOnChar_cons_self]
        rw [getLastD_cons_of_ne_nil _ _ _ (splitOnChar_ne_nil x (y :: ys))]
        exact ihv
      · cases hr : splitOnChar c (y :: ys) with
        | nil => exact absurd hr (splitOnChar_ne_nil c (y :: ys))
        | cons a as =>
          rw [splitOnChar_cons_ne c x (y :: ys) hx a as hr]
          rw [hr] at ihv
          cases as with
          | nil => simp
          | cons b bs =>
            rw [getLastD_cons_of_ne_nil _ _ _ (by simp)]
            rw [getLastD_cons_of_ne_nil _ _ _ (by simp)] at ihv
            exact ihv

theorem takeWhile_all_eq {α : Type} (p : α → Bool) (l : List α)
    (h : ∀ x ∈ l, p x = true) : l.takeWhile p = l := by
  induction l with
  | nil => rfl
  | cons y ys ih =>
    rw [List.takeWhile_cons, if_pos (h y (by simp))]
    rw [ih (fun x hx => h x (by simp [hx]))]

theorem takeWhile_append_stop {α : Type} (p : α → Bool) (A : List α) (a : α)
    (B : List α) (hA : ∀ x ∈ A, p x = true) (ha : p a = false) :
    (A ++ a :: B).takeWhile p = A := by
  induction A with
  | nil => simp [List.takeWhile_cons, ha]
  | cons y ys ih =>
    rw [List.cons_append, List.takeWhile_cons, if_pos (hA y (by simp))]
    rw [ih (fun x hx => hA x (by simp [hx]))]

theorem getLastD_mem_of_ne_nil {α : Type} (l : List α) (d : α) (h : l ≠ []) :
    l.getLastD d ∈ l := by
  rw [List.getLastD_eq_getLast?, List.getLast?_eq_getLast l h, Option.getD_some]
  exact List.getLast_mem h

theorem splitOnChar_pieces_count_zero (c : Char) (l : List Char) :
    ∀ p ∈ splitOnChar c l, p.count c = 0 := by
  induction l with
  | nil =>
    intro p hp
    simp only [splitOnChar, List.mem_singleton] at hp
    subst hp
    rfl
  | cons x xs ih =>
    by_cases hx : x = c
    · subst hx
      rw [splitOnChar_cons_self]
      intro p hp
      rcases List.mem_cons.mp hp with h | h
      · subst h; rfl
      · exact ih p h
    · cases hr : splitOnChar c xs with
      | nil => exact absurd hr (splitOnChar_ne_nil c xs)
      | cons a as =>
        rw [splitOnChar_cons_ne c x xs hx a as hr]
        intro p hp
        rcases List.mem_cons.mp hp with h | h
        · subst h
          have ha : a.count c = 0 := ih a (by rw [hr]; exact List.mem_cons_self a as)
          simp [List.count_cons, hx, ha]
        · exact ih p (by rw [hr]; exact List.mem_cons_of_mem a h)

theorem replacePipe_normAux (d : Int) (l : List Char) :
    replacePipe (normAux d l) = replacePipe l := by
  induction l generalizing d with
  | nil => rfl
  | cons c rest ih =>
    simp only [normAux]
    by_cases h1 : c = '<'
    · subst h1
      rw [if_pos rfl]
      exact congrArg (List.cons '<') (ih (d + 1))
    · rw [if_neg h1]
      by_cases h2 : c = '>'
      · subst h2
        rw [if_pos rfl]
        exact congrArg (List.cons '>') (ih (d - 1))
      · rw [if_neg h2]
        by_cases h3 : c = ',' ∧ 0 < d
        · obtain ⟨hc, hd⟩ := h3
          subst hc
          rw [if_pos ⟨rfl, hd⟩]
          exact congrArg (List.cons ',') (ih d)
        · rw [if_neg h3]
          exact congrArg (List.cons _) (ih d)

theorem normalizeGenericType_eq (l : List Char) :
    normalizeGenericType l = replacePipe l :=
  replacePipe_normAux 0 l

theorem matchMethod_fn_ne_nil {l fn ps : List Char}
    (h : matchMethod l = some (fn, ps)) : fn ≠ [] := by
  simp only [matchMethod] at h
  split at h
  · exact absurd h (by simp)
  · split at h
    · exact absurd h (by simp)
    · split at h
      · exact absurd h (by simp)
      · split at h
        · exact absurd h (by simp)
        · injection h with hpair
          have hfn : l.takeWhile isWordDot = fn := congrArg Prod.fst hpair
          rename_i hw _ _ _
          rw [← hfn]
          simpa [List.isEmpty_iff] using hw

theorem deprecatedLoop_eq (oldHook newHook : String) (l : List (Nat × Nat)) :
    deprecatedLoop oldHook newHook l =
      l.map (fun m =>
        { startPos := m.1, endPos := m.1 + m.2,
          message := deprecatedMessage oldHook newHook,
          severity := Severity.error }) := by
  induction l with
  | nil => rfl
  | cons m rest ih =>
    obtain ⟨pos, len⟩ := m
    simp [deprecatedLoop, ih]

theorem validHookLoop_eq (msg : String) (e : Nat) (occs : List (Nat × Nat × List Char)) :
    validHookLoop msg e occs =
      ((occs.filter (fun o => decide (jsParamCount o.2.2 < e))).map
        (fun o => { startPos := o.1, endPos := o.1 + o.2.1, message := msg,
                    severity := Severity.warning }),
       occs.map (fun o => (o.1, o.1 + o.2.1))) := by
  induction occs with
  | nil => rfl
  | cons o rest ih =>
    obtain ⟨pos, len, cap⟩ := o
    simp only [validHookLoop, ih, List.filter_cons, List.map_cons]
    by_cases hc : jsParamCount cap < e
    · simp [hc]
    · simp [hc]

/-! ## Claim theorems -/

/-- C1: the claim expects `parseHook` to preserve top-level comma boundaries
across generic type arguments, but the source splits the parameter list on
every comma before `normalizeGenericType` runs, so a generic parameter is
fragmented: the example signature yields three parameter pieces (with
`Dictionary<string, int> a` broken apart) instead of the two the parser's
own generic-type handling is meant to produce. -/
theorem parseHook_generic_comma_fragmentation_eval :
    parseHook ("void Foo(Dictionary<string, int> a, bool b)") =
      { name := "Foo", parameters := ["Dictionary<string", "int> a", "bool b"],
        nspace := none } ∧
    parseHook ("void F(List<Dictionary<string, List<int>>> m)") =
      { name := "F", parameters := ["List<Dictionary<string", "List<int>>> m"],
        nspace := none } :=
  ⟨rfl, rfl⟩

/-- C6: the strict matcher built for `void Foo(int x)` accepts an occurrence
whose parameter has the same type and a different identifier, and rejects an
occurrence whose parameter type differs. -/
theorem strict_matcher_type_sensitivity :
    strictFindAll ("void Foo(int x)") ("void Foo(int a)") = [(0, 15)] ∧
    strictFindAll ("void Foo(int x)") ("void Foo(string a)") = [] :=
  ⟨rfl, rfl⟩

/-- C7: the permissive matcher built for `void Foo(int x)` finds exactly one
occurrence in `void Foo(int a, int b) { }`, capturing the whole text between
the parentheses regardless of the arity mismatch. -/
theorem permissive_matcher_captures_all_params :
    permissiveFindAll ("void Foo(int x)") ("void Foo(int a, int b) \x7b \x7d") =
      [(0, 22, ("int a, int b").data)] :=
  rfl

/-- C2 counterexample: the claim says deprecated-hook occurrences are located
with the permissive pattern, but `analyzeDocument` calls
`createRegexFromHook(oldHook)` without the `checkMissingParams` flag, i.e.
with the strict pattern.  On `void Foo(string a)` the permissive pattern for
the entry `void Foo(int x)` finds one occurrence, yet the deprecated pass
emits no diagnostic at all. -/
theorem deprecated_pass_strict_not_permissive_cex :
    (permissiveFindAll ("void Foo(int x)") ("void Foo(string a)")).length = 1 ∧
    processDeprecatedHook ("void Foo(int x)") ("void Bar(int x)")
      ("void Foo(string a)") = [] :=
  ⟨rfl, rfl⟩

/-- C2 amended: the deprecated pass locates occurrences with the strict
pattern, and for every occurrence so found emits one error-severity
diagnostic naming the deprecated signature, instructing to use the
replacement when it is non-empty and stating that no direct replacement
exists when it is empty. -/
theorem deprecated_pass_emits_error_per_strict_occurrence
    (oldHook newHook text : String) :
    processDeprecatedHook oldHook newHook text =
      (strictFindAll oldHook text).map (fun m =>
        { startPos := m.1, endPos := m.1 + m.2,
          message := "Hook \"" ++ oldHook ++ "\" is deprecated.\n" ++
            (if newHook = "" then "No direct replacement available."
             else "Use \"" ++ newHook ++ "\" instead."),
          severity := Severity.error }) := by
  rw [processDeprecatedHook, deprecatedLoop_eq]
  simp [deprecatedMessage]

/-- C3 counterexample: the claim says the actual parameter count splits the
captured text on top-level commas only, trims and counts non-empty pieces;
the source instead counts every comma-separated segment of the trimmed
capture.  For the capture `Dictionary<string, int> map` the source counts 2
while the top-level count is 1, so with an expected count of 2 the valid-hook
pass emits no warning where the claimed counting would. -/
theorem actual_count_naive_split_cex :
    jsParamCount (("Dictionary<string, int> map").data) = 2 ∧
    specTopLevelParamCount ("Dictionary<string, int> map") = 1 ∧
    jsParamCount (("a,").data) = 2 ∧
    (processValidHook ("void Foo(int a, int b)")
      ("void Foo(Dictionary<string, int> map)")).1 = [] ∧
    (processValidHook ("void Foo(int a, int b)")
      ("void Foo(Dictionary<string, int> map)")).2 = [(0, 37)] :=
  ⟨rfl, rfl, rfl, rfl, rfl⟩

/-- C3 amended: the actual parameter count used by the diagnostic policy is 0
when the trimmed captured text is empty, and otherwise one more than the
number of comma characters in the trimmed captured text: every comma
separates, including commas inside angle brackets, and empty pieces are
counted. -/
theorem jsParamCount_characterization (cap : List Char) :
    jsParamCount cap =
      if (jsTrim cap).isEmpty then 0 else (jsTrim cap).count ',' + 1 := by
  unfold jsParamCount
  by_cases h : (jsTrim cap).isEmpty
  · simp [h]
  · simp [h, splitOnChar_length]

/-- C4: in the valid-hook pass a missing-parameter warning citing the
expected full signature is emitted for an occurrence exactly when the
captured parameter count is strictly below the parsed hook's expected count,
and the occurrence's range enters the highlight list in every case; in
particular an occurrence with two actual parameters against one expected is
not flagged but still highlighted. -/
theorem validHook_warning_iff_fewer_params (hook text : String) :
    (processValidHook hook text).2 =
      (permissiveFindAll hook text).map (fun o => (o.1, o.1 + o.2.1)) ∧
    (processValidHook hook text).1 =
      ((permissiveFindAll hook text).filter
        (fun o => decide (jsParamCount o.2.2 < (parseHook hook).parameters.length))).map
        (fun o => { startPos := o.1, endPos := o.1 + o.2.1,
                    message := missingParamsMessage hook (parseHook hook).name,
                    severity := Severity.warning }) ∧
    (processValidHook ("void Foo(int x)") ("void Foo(int a, int b)")).1 = [] ∧
    (processValidHook ("void Foo(int x)") ("void Foo(int a, int b)")).2 = [(0, 22)] := by
  refine ⟨?_, ?_, rfl, rfl⟩
  · rw [processValidHook, validHookLoop_eq]
  · rw [processValidHook, validHookLoop_eq]

theorem string_data_mk (l : List Char) : (String.mk l).data = l := rfl

/-- C5: `parseHook` is a total function (the embedding is a Lean function, so
it cannot throw), and whenever the cleaned input fails the anchored
shape match it returns the cleaned string itself as the name with no
parameters; in particular `not a signature` degrades exactly that way. -/
theorem parseHook_degrades_on_no_match :
    parseHook ("not a signature") =
      { name := "not a signature", parameters := [], nspace := none } ∧
    ∀ (s : String), matchMethod (cleanSignatureData s) = none →
      parseHook s = { name := String.mk (cleanSignatureData s), parameters := [],
                      nspace := none } := by
  refine ⟨rfl, ?_⟩
  intro s h
  simp [parseHook, h]

theorem parseHook_degrades_on_no_match_witness :
    parseHook ("void Foo(") =
      { name := String.mk (cleanSignatureData ("void Foo(")), parameters := [],
        nspace := none } :=
  (parseHook_degrades_on_no_match).2 ("void Foo(") rfl

/-- C8: on a shape match the parser takes the last dot-segment of the dotted
identifier as the name — the name contains no dot and equals the maximal
dot-free suffix of the identifier, so for identifiers with two or more dots
the split happens at the last dot — and joins the preceding segments as the
namespace exactly when there is more than one segment (no dot means no
namespace and the name is the whole identifier; with a namespace,
namespace ++ dot ++ name reassembles the identifier, which together with the
dot-free name pins the namespace as all preceding segments joined by dots);
the example signature parses as claimed. -/
theorem parseHook_namespace_split :
    parseHook ("void NS.Sub.Baz(int x)") =
      { name := "Baz", parameters := ["int x"], nspace := some "NS.Sub" } ∧
    ∀ (s : String) (fn ps : List Char),
      matchMethod (cleanSignatureData s) = some (fn, ps) →
        ((parseHook s).nspace = none ↔ fn.count '.' = 0) ∧
        (parseHook s).name.data.count '.' = 0 ∧
        (parseHook s).name.data = (fn.reverse.takeWhile (fun c => c ≠ '.')).reverse ∧
        ((parseHook s).nspace = none → (parseHook s).name.data = fn) ∧
        (∀ n, (parseHook s).nspace = some n →
          n.data ++ '.' :: (parseHook s).name.data = fn) := by
  refine ⟨rfl, ?_⟩
  intro s fn ps h
  have hns : (parseHook s).nspace =
      (if 1 < (splitOnChar '.' fn).length
       then some (String.mk (joinChar '.' (splitOnChar '.' fn).dropLast)) else none) := by
    simp [parseHook, h]
  have hname : (parseHook s).name = String.mk ((splitOnChar '.' fn).getLastD []) := by
    simp [parseHook, h]
  have hlen : (splitOnChar '.' fn).length = fn.count '.' + 1 := splitOnChar_length '.' fn
  have hiff : (parseHook s).nspace = none ↔ fn.count '.' = 0 := by
    rw [hns]
    by_cases hc : 1 < (splitOnChar '.' fn).length
    · rw [if_pos hc]
      constructor
      · intro h'; cases h'
      · intro hcount
        rw [hlen] at hc
        exact absurd hcount (by omega)
    · rw [if_neg hc]
      rw [hlen] at hc
      simp only [true_iff]
      omega
  have hnone : (parseHook s).nspace = none → (parseHook s).name.data = fn := by
    rw [hns, hname]
    by_cases hc : 1 < (splitOnChar '.' fn).length
    · rw [if_pos hc]
      intro h'; cases h'
    · rw [if_neg hc]
      intro _
      have hlen1 : (splitOnChar '.' fn).length = 1 := by
        have hne := splitOnChar_ne_nil '.' fn
        cases hparts : splitOnChar '.' fn with
        | nil => exact absurd hparts hne
        | cons a as =>
          rw [hparts] at hc
          simp only [List.length_cons] at hc ⊢
          omega
      obtain ⟨p, hp1⟩ := List.length_eq_one.mp hlen1
      have hj := joinChar_splitOnChar '.' fn
      rw [hp1] at hj
      simp only [joinChar] at hj
      rw [hp1]
      have hone : ([p].getLastD ([] : List Char)) = p := by
        simp [List.getLastD_eq_getLast?]
      rw [hone, string_data_mk]
      exact hj
  have hsome : ∀ n, (parseHook s).nspace = some n →
      n.data ++ '.' :: (parseHook s).name.data = fn := by
    intro n hn
    rw [hns] at hn
    by_cases hc : 1 < (splitOnChar '.' fn).length
    · rw [if_pos hc] at hn
      injection hn with hn'
      rw [hname, ← hn', string_data_mk, string_data_mk]
      cases hparts : splitOnChar '.' fn with
      | nil => exact absurd hparts (splitOnChar_ne_nil '.' fn)
      | cons a as =>
        have has : as ≠ [] := by
          rw [hparts] at hc
          simp only [List.length_cons] at hc
          exact List.ne_nil_of_length_pos (by omega)
        have hj := joinChar_splitOnChar '.' fn
        rw [hparts] at hj
        rw [← hj, getLastD_cons_of_ne_nil a [] as has]
        exact joinChar_dropLast '.' a as has
    · rw [if_neg hc] at hn
      cases hn
  have hnamecount : (parseHook s).name.data.count '.' = 0 := by
    rw [hname, string_data_mk]
    exact splitOnChar_pieces_count_zero '.' fn _
      (getLastD_mem_of_ne_nil _ _ (splitOnChar_ne_nil '.' fn))
  have hsuffix : (parseHook s).name.data =
      (fn.reverse.takeWhile (fun c => c ≠ '.')).reverse := by
    cases hcase : (parseHook s).nspace with
    | none =>
      have hfn0 : fn.count '.' = 0 := hiff.mp hcase
      have hnotmem : '.' ∉ fn := List.count_eq_zero.mp hfn0
      rw [hnone hcase]
      have hall : ∀ x ∈ fn.reverse, (fun c => decide (c ≠ '.')) x = true := by
        intro x hx
        have hxfn : x ∈ fn := List.mem_reverse.mp hx
        simp only [decide_eq_true_eq]
        intro hxe
        subst hxe
        exact hnotmem hxfn
      rw [takeWhile_all_eq _ _ hall, List.reverse_reverse]
    | some n =>
      have heq := hsome n hcase
      have hnotmem : '.' ∉ (parseHook s).name.data :=
        List.count_eq_zero.mp hnamecount
      rw [← heq]
      rw [List.reverse_append, List.reverse_cons, List.append_assoc,
        List.singleton_append]
      have hall : ∀ x ∈ (parseHook s).name.data.reverse,
          (fun c => decide (c ≠ '.')) x = true := by
        intro x hx
        have hxn : x ∈ (parseHook s).name.data := List.mem_reverse.mp hx
        simp only [decide_eq_true_eq]
        intro hxe
        subst hxe
        exact hnotmem hxn
      rw [takeWhile_append_stop _ _ '.' _ hall (by simp), List.reverse_reverse]
  exact ⟨hiff, hnamecount, hsuffix, hnone, hsome⟩

theorem parseHook_namespace_split_witness :
    (parseHook ("void A.B.C(int x)")).name.data =
      ((("A.B.C").data).reverse.takeWhile (fun c => c ≠ '.')).reverse ∧
    ("A.B" : String).data ++ '.' :: (parseHook ("void A.B.C(int x)")).name.data =
      ("A.B.C" : String).data := by
  have h := parseHook_namespace_split.2 ("void A.B.C(int x)") (("A.B.C").data)
    (("int x").data) rfl
  exact ⟨h.2.2.1, h.2.2.2.2 "A.B" rfl⟩

/-- C9 counterexample: for the empty input the parser degrades to the empty
cleaned string as name, so the name field is not a non-empty identifier. -/
theorem parseHook_empty_name_cex : (parseHook ("")).name = "" := rfl

/-- C9 amended: the name field is non-empty provided the cleaned input is
non-empty and, when the cleaned input matches the shape, the matched dotted
identifier does not end with a dot; it is the final dot-segment of the
identifier on the match path and the whole cleaned input (not necessarily an
identifier) on the degradation path. -/
theorem parseHook_name_nonempty_amended (s : String)
    (h1 : cleanSignatureData s ≠ [])
    (h2 : ∀ fn ps, matchMethod (cleanSignatureData s) = some (fn, ps) →
      fn.getLast? ≠ some '.') :
    (parseHook s).name ≠ "" := by
  cases hm : matchMethod (cleanSignatureData s) with
  | none =>
    have hp : (parseHook s).name = String.mk (cleanSignatureData s) := by
      simp [parseHook, hm]
    rw [hp, Ne, string_mk_eq_empty_iff]
    exact h1
  | some pr =>
    obtain ⟨fn, ps⟩ := pr
    have hfn : fn ≠ [] := matchMethod_fn_ne_nil hm
    have hdot := h2 fn ps hm
    have hp : (parseHook s).name = String.mk ((splitOnChar '.' fn).getLastD []) := by
      simp [parseHook, hm]
    rw [hp, Ne, string_mk_eq_empty_iff]
    exact splitOnChar_getLastD_ne_nil '.' fn hfn hdot

theorem parseHook_name_nonempty_amended_witness :
    (parseHook ("void Foo(int x)")).name ≠ "" :=
  parseHook_name_nonempty_amended ("void Foo(int x)") (by decide)
    (fun fn ps h => by
      have e : matchMethod (cleanSignatureData ("void Foo(int x)")) =
          some ((("Foo").data), (("int x").data)) := rfl
      rw [e] at h
      injection h with hpair
      have hfn : ("Foo").data = fn := congrArg Prod.fst hpair
      rw [← hfn]
      decide)

/-- C10: on a shape match every comma-split, trimmed, non-empty parameter
piece that contains an angle bracket has each of its pipe characters
replaced by a comma (the depth-tracking normalization is observationally
exactly that replacement), while pieces without an angle bracket are kept
unchanged. -/
theorem parseHook_pipe_replacement (s : String) (fn ps : List Char)
    (h : matchMethod (cleanSignatureData s) = some (fn, ps)) :
    (parseHook s).parameters =
      (((splitOnChar ',' ps).map jsTrim).filter (fun p => !p.isEmpty)).map
        (fun p => String.mk (if p.contains '<' then replacePipe p else p)) := by
  have hp : (parseHook s).parameters =
      (((splitOnChar ',' ps).map jsTrim).filter (fun p => !p.isEmpty)).map
        (fun p => String.mk (if p.contains '<' then normalizeGenericType p else p)) := by
    simp [parseHook, h]
  rw [hp]
  simp only [normalizeGenericType_eq]

theorem parseHook_pipe_replacement_witness :
    (parseHook ("void Foo(Dictionary<string|int> d, bool b)")).parameters =
      (((splitOnChar ',' (("Dictionary<string|int> d, bool b").data)).map jsTrim).filter
        (fun p => !p.isEmpty)).map
        (fun p => String.mk (if p.contains '<' then replacePipe p else p)) :=
  parseHook_pipe_replacement ("void Foo(Dictionary<string|int> d, bool b)")
    (("Foo").data) (("Dictionary<string|int> d, bool b").data) rfl
